import Mathlib

/-!
Shallow embedding of the `alphabetic` Rust crate (gogo1704/alphabetic).

The crate models a single Latin-alphabet letter as a pair of an alphabet
position (`index : u8`) and a case tag (`LetterCase`), with fallible
constructors from chars/bytes/strings, total conversions back, and a
wrap-around `shift` operation.

Modelling conventions:
- `u8` values and `char` code points are modelled as `Nat`; where wrap-around
  or truncation matters it is made explicit.
- Rust's `i32` remainder `%` truncates toward zero: it is `Int.tmod`.
- The `as u8` cast truncates to the low 8 bits: it is `% 256` on `Int`.
- The `u8` addition `self.index + offset` panics on overflow (debug builds),
  so `shift` is modelled as `Option`-valued: `none` is the overflow panic.
- Rust `Result<T, NotAlphabeticError>` with the payload-free unit error is
  modelled as `Option T` (`none` = `Err(NotAlphabeticError)`).
-/

/-- `LetterCase` from `src/enums.rs`: a letter case tag with exactly two
variants, `Lowercase` and `Uppercase`. -/
inductive LetterCase
  | Lowercase
  | Uppercase
deriving DecidableEq, Repr

/-- `AlphabeticLetter` from `src/alphabetic.rs`: an alphabet position
(`index : u8`, modelled as `Nat`) together with a case tag. -/
structure AlphabeticLetter where
  index : Nat
  case : LetterCase
deriving DecidableEq, Repr

namespace AlphabeticLetter

/-- `Self::ALPHABET_SIZE`: number of letters in an alphabet. -/
def ALPHABET_SIZE : Nat := 26

/-- `AlphabeticLetter::from_index`: builds a letter from a position and a
case, with no validation whatsoever (the Rust body is a bare struct literal). -/
def from_index (index : Nat) (c : LetterCase) : AlphabeticLetter :=
  ⟨index, c⟩

/-- `u8::is_ascii_lowercase` / `char::is_ascii_lowercase` on the numeric
value: the range `b'a' ..= b'z'`, i.e. `97 ..= 122`. -/
def isAsciiLowercase (c : Nat) : Bool :=
  decide (97 ≤ c ∧ c ≤ 122)

/-- `u8::is_ascii_uppercase` / `char::is_ascii_uppercase` on the numeric
value: the range `b'A' ..= b'Z'`, i.e. `65 ..= 90`. -/
def isAsciiUppercase (c : Nat) : Bool :=
  decide (65 ≤ c ∧ c ≤ 90)

/-- `is_ascii_alphabetic`: an ASCII uppercase or lowercase letter. -/
def isAsciiAlphabetic (c : Nat) : Bool :=
  isAsciiUppercase c || isAsciiLowercase c

/-- `impl TryFrom<u8> for AlphabeticLetter` (`src/alphabetic.rs`): lowercase
bytes map to `index = value - b'a'`, uppercase to `index = value - b'A'`,
anything else is `Err(NotAlphabeticError)` (here `none`). -/
def tryFromByte (value : Nat) : Option AlphabeticLetter :=
  if isAsciiLowercase value then
    some ⟨value - 97, LetterCase.Lowercase⟩
  else if isAsciiUppercase value then
    some ⟨value - 65, LetterCase.Uppercase⟩
  else
    none

/-- `impl TryFrom<char> for AlphabeticLetter` (`src/alphabetic.rs`):
rejects non-ASCII-alphabetic chars, then converts through `u8::try_from`
(which fails for code points above 255; unreachable after the alphabetic
check), then classifies by case. The final Rust `unreachable!()` branch is
modelled as `none`. -/
def tryFromChar (value : Nat) : Option AlphabeticLetter :=
  if !isAsciiAlphabetic value then
    none
  else if 255 < value then
    none
  else if isAsciiLowercase value then
    some ⟨value - 97, LetterCase.Lowercase⟩
  else if isAsciiUppercase value then
    some ⟨value - 65, LetterCase.Uppercase⟩
  else
    none

/-- `AlphabeticLetter::from_string`: `input.chars().map(try_from).collect::
<Result<Vec<_>>>()` — converts every character in order, stopping with the
error at the first non-alphabetic character. A string is a list of code
points. -/
def from_string (input : List Nat) : Option (List AlphabeticLetter) :=
  input.mapM tryFromChar

/-- `impl From<AlphabeticLetter> for u8`: `index + b'a'` or `index + b'A'`
according to the case tag. -/
def toByte (l : AlphabeticLetter) : Nat :=
  match l.case with
  | LetterCase.Lowercase => l.index + 97
  | LetterCase.Uppercase => l.index + 65

/-- `impl From<AlphabeticLetter> for char`: same arithmetic as the byte
conversion, then the (lossless) `u8 → char` widening. -/
def toChar (l : AlphabeticLetter) : Nat :=
  match l.case with
  | LetterCase.Lowercase => l.index + 97
  | LetterCase.Uppercase => l.index + 65

/-- `AlphabeticLetter::shift`:
`offset = (amount % 26 + 26) as u8; index = (index + offset) % 26`.
Rust `%` on `i32` is `Int.tmod`; `as u8` keeps the low 8 bits (`% 256`);
the `u8` addition `index + offset` is modelled as checked — `none` stands
for the debug-build overflow panic, which the source comment asserts can
never happen. -/
def shift (l : AlphabeticLetter) (amount : Int) : Option AlphabeticLetter :=
  let offsetInt : Int := amount.tmod (ALPHABET_SIZE : Int) + (ALPHABET_SIZE : Int)
  let offset : Nat := (offsetInt % 256).toNat
  if l.index + offset ≤ 255 then
    some { l with index := (l.index + offset) % ALPHABET_SIZE }
  else
    none

/-- Truncating remainder is odd in the dividend. -/
theorem tmod_neg_dividend (a b : Int) : (-a).tmod b = -(a.tmod b) := by
  rw [Int.tmod_def, Int.tmod_def, Int.neg_tdiv]
  ring

/-- Bounds for the truncating remainder by 26, and its agreement with the
Euclidean remainder after the `+ 26` correction. -/
theorem tmod26_facts (a : Int) :
    -25 ≤ a.tmod 26 ∧ a.tmod 26 ≤ 25 ∧ (a.tmod 26 + 26) % 26 = a % 26 := by
  rcases le_or_lt 0 a with h | h
  · rw [Int.tmod_eq_emod h (by norm_num)]
    omega
  · have hn : (-a).tmod 26 = -(a.tmod 26) := tmod_neg_dividend a 26
    rw [Int.tmod_eq_emod (by omega) (by norm_num)] at hn
    omega

/-- Under the position invariant, `shift` takes the non-overflow branch and
lands on the Euclidean remainder of `index + amount`. -/
theorem shift_spec (l : AlphabeticLetter) (amount : Int) (h : l.index < 26) :
    shift l amount = some ⟨(((l.index : Int) + amount) % 26).toNat, l.case⟩ := by
  obtain ⟨i, c⟩ := l
  have hb := tmod26_facts amount
  simp only [shift, ALPHABET_SIZE, Nat.cast_ofNat] at *
  split
  · simp only [Option.some.injEq, AlphabeticLetter.mk.injEq, and_true]
    omega
  · exfalso
    omega

/-- The char constructor on a lowercase ASCII letter. -/
theorem tryFromChar_lower (c : Nat) (h1 : 97 ≤ c) (h2 : c ≤ 122) :
    tryFromChar c = some ⟨c - 97, LetterCase.Lowercase⟩ := by
  have hl : isAsciiLowercase c = true := by simp [isAsciiLowercase]; omega
  have hu : isAsciiUppercase c = false := by simp [isAsciiUppercase]; omega
  have h255 : ¬ 255 < c := by omega
  simp [tryFromChar, isAsciiAlphabetic, hl, hu, h255]

/-- The char constructor on an uppercase ASCII letter. -/
theorem tryFromChar_upper (c : Nat) (h1 : 65 ≤ c) (h2 : c ≤ 90) :
    tryFromChar c = some ⟨c - 65, LetterCase.Uppercase⟩ := by
  have hl : isAsciiLowercase c = false := by simp [isAsciiLowercase]; omega
  have hu : isAsciiUppercase c = true := by simp [isAsciiUppercase]; omega
  have h255 : ¬ 255 < c := by omega
  simp [tryFromChar, isAsciiAlphabetic, hl, hu, h255]

/-- The char constructor rejects everything that is not ASCII alphabetic. -/
theorem tryFromChar_not_alpha (c : Nat) (h : isAsciiAlphabetic c = false) :
    tryFromChar c = none := by
  simp [tryFromChar, h]

/-- The byte constructor on a lowercase ASCII letter. -/
theorem tryFromByte_lower (c : Nat) (h1 : 97 ≤ c) (h2 : c ≤ 122) :
    tryFromByte c = some ⟨c - 97, LetterCase.Lowercase⟩ := by
  have hl : isAsciiLowercase c = true := by simp [isAsciiLowercase]; omega
  simp [tryFromByte, hl]

/-- The byte constructor on an uppercase ASCII letter. -/
theorem tryFromByte_upper (c : Nat) (h1 : 65 ≤ c) (h2 : c ≤ 90) :
    tryFromByte c = some ⟨c - 65, LetterCase.Uppercase⟩ := by
  have hl : isAsciiLowercase c = false := by simp [isAsciiLowercase]; omega
  have hu : isAsciiUppercase c = true := by simp [isAsciiUppercase]; omega
  simp [tryFromByte, hl, hu]

/-- The byte constructor rejects everything that is not ASCII alphabetic. -/
theorem tryFromByte_not_alpha (c : Nat) (h : isAsciiAlphabetic c = false) :
    tryFromByte c = none := by
  simp only [isAsciiAlphabetic, Bool.or_eq_false_iff] at h
  simp [tryFromByte, h.1, h.2]

/-- The char constructor fails exactly on non-ASCII-alphabetic input. -/
theorem tryFromChar_eq_none_iff (c : Nat) :
    tryFromChar c = none ↔ isAsciiAlphabetic c = false := by
  constructor
  · intro h
    rcases Bool.eq_false_or_eq_true (isAsciiAlphabetic c) with h1 | h1
    swap
    · exact h1
    · exfalso
      simp only [isAsciiAlphabetic, isAsciiUppercase, isAsciiLowercase,
        Bool.or_eq_true, decide_eq_true_eq] at h1
      rcases h1 with ⟨h1, h2⟩ | ⟨h1, h2⟩
      · rw [tryFromChar_upper c h1 h2] at h
        exact Option.noConfusion h
      · rw [tryFromChar_lower c h1 h2] at h
        exact Option.noConfusion h
  · exact tryFromChar_not_alpha c

/-- Unfolding of `from_string` on a nonempty string: convert the head,
then the tail, then cons the results. -/
theorem from_string_cons (c : Nat) (t : List Nat) :
    from_string (c :: t) =
      (tryFromChar c).bind (fun l => (from_string t).bind (fun ls => some (l :: ls))) := by
  rw [from_string, List.mapM_cons]
  rfl

/-- Unfolding of `from_string` on the empty string. -/
theorem from_string_nil : from_string [] = some [] := by
  rw [from_string, List.mapM_nil]
  rfl

/-- A letter produced by the char constructor certifies its input
alphabetic. -/
theorem tryFromChar_some_alpha (c : Nat) (l : AlphabeticLetter)
    (h : tryFromChar c = some l) : isAsciiAlphabetic c = true := by
  rcases Bool.eq_false_or_eq_true (isAsciiAlphabetic c) with h1 | h1
  · exact h1
  · rw [(tryFromChar_eq_none_iff c).mpr h1] at h
    exact Option.noConfusion h

/-- `from_string` fails exactly when some character of the input is not
ASCII alphabetic. -/
theorem from_string_eq_none_iff (s : List Nat) :
    from_string s = none ↔ ∃ c ∈ s, isAsciiAlphabetic c = false := by
  induction s with
  | nil =>
    rw [from_string_nil]
    simp
  | cons c t ih =>
    rw [from_string_cons]
    cases hc : tryFromChar c with
    | none =>
      simp only [Option.none_bind]
      constructor
      · intro _
        exact ⟨c, List.mem_cons_self c t, (tryFromChar_eq_none_iff c).mp hc⟩
      · intro _
        trivial
    | some l =>
      have hcb : isAsciiAlphabetic c = true := tryFromChar_some_alpha c l hc
      cases ht : from_string t with
      | none =>
        simp only [Option.some_bind, Option.none_bind]
        constructor
        · intro _
          obtain ⟨x, hx, hxa⟩ := ih.mp ht
          exact ⟨x, List.mem_cons_of_mem c hx, hxa⟩
        · intro _
          trivial
      | some ls =>
        simp only [Option.some_bind]
        constructor
        · intro h
          exact Option.noConfusion h
        · rintro ⟨x, hx, hxa⟩
          rcases List.mem_cons.mp hx with rfl | hx2
          · rw [hxa] at hcb
            exact Bool.noConfusion hcb
          · have hnone : from_string t = none := ih.mpr ⟨x, hx2, hxa⟩
            rw [ht] at hnone
            exact Option.noConfusion hnone

/-- On success, `from_string` returns one letter per input character,
in order, each produced by the character constructor. -/
theorem from_string_some_spec (s : List Nat) (ls : List AlphabeticLetter)
    (h : from_string s = some ls) :
    ls.length = s.length ∧
      ∀ i (hs : i < s.length) (hl : i < ls.length),
        tryFromChar (s.get ⟨i, hs⟩) = some (ls.get ⟨i, hl⟩) := by
  induction s generalizing ls with
  | nil =>
    rw [from_string_nil] at h
    cases h
    exact ⟨rfl, fun i hs => absurd hs (Nat.not_lt_zero i)⟩
  | cons c t ih =>
    rw [from_string_cons] at h
    cases hc : tryFromChar c with
    | none =>
      rw [hc, Option.none_bind] at h
      exact Option.noConfusion h
    | some l =>
      rw [hc, Option.some_bind] at h
      cases ht : from_string t with
      | none =>
        rw [ht, Option.none_bind] at h
        exact Option.noConfusion h
      | some tl =>
        rw [ht, Option.some_bind] at h
        cases h
        obtain ⟨hlen, hord⟩ := ih tl ht
        refine ⟨by simp [hlen], ?_⟩
        intro i hs hl
        cases i with
        | zero =>
          simpa using hc
        | succ j =>
          have hs2 : j < t.length := by simpa using hs
          have hl2 : j < tl.length := by simpa using hl
          simpa using hord j hs2 hl2

/-- `shift_spec` restated on an explicit constructor application. -/
theorem shift_spec_mk (i : Nat) (c : LetterCase) (amount : Int) (h : i < 26) :
    shift ⟨i, c⟩ amount = some ⟨(((i : Int) + amount) % 26).toNat, c⟩ :=
  shift_spec ⟨i, c⟩ amount h

end AlphabeticLetter

open AlphabeticLetter

/-- C1: for every Letter whose position is < 26 and every signed 32-bit
integer amount, `shift` sets the position to
`((position + amount) mod 26 + 26) mod 26` with true mathematical (always
non-negative) modulo, so the resulting position always lies in `[0, 25]`. -/
theorem C1_shift_true_mathematical_modulo (l : AlphabeticLetter) (amount : Int)
    (h : l.index < 26) (h1 : -(2 ^ 31) ≤ amount) (h2 : amount < 2 ^ 31) :
    ∃ lr, shift l amount = some lr ∧
      (lr.index : Int) = (((l.index : Int) + amount) % 26 + 26) % 26 ∧
      lr.index ≤ 25 := by
  refine ⟨_, shift_spec l amount h, ?_, ?_⟩
  · show ((((l.index : Int) + amount) % 26).toNat : Int) =
      (((l.index : Int) + amount) % 26 + 26) % 26
    omega
  · show (((l.index : Int) + amount) % 26).toNat ≤ 25
    omega

/-- C1 witness: the letter R (position 17, uppercase) shifted by -5. -/
theorem C1_shift_true_mathematical_modulo_witness :
    ∃ lr, shift ⟨17, LetterCase.Uppercase⟩ (-5) = some lr ∧
      (lr.index : Int) =
        ((((⟨17, LetterCase.Uppercase⟩ : AlphabeticLetter).index : Int) + (-5)) % 26 + 26) % 26 ∧
      lr.index ≤ 25 :=
  C1_shift_true_mathematical_modulo ⟨17, LetterCase.Uppercase⟩ (-5)
    (by decide) (by decide) (by decide)

/-- C2: converting any ASCII alphabetic character (resp. byte) to a letter
with the fallible constructor and back yields the original character. -/
theorem C2_char_roundtrip (c : Nat) (h : isAsciiAlphabetic c = true) :
    (tryFromChar c).map toChar = some c ∧ (tryFromByte c).map toByte = some c := by
  simp only [isAsciiAlphabetic, isAsciiUppercase, isAsciiLowercase,
    Bool.or_eq_true, decide_eq_true_eq] at h
  rcases h with ⟨h1, h2⟩ | ⟨h1, h2⟩
  · rw [tryFromChar_upper c h1 h2, tryFromByte_upper c h1 h2]
    simp only [Option.map_some', toChar, toByte]
    constructor <;> · congr 1; omega
  · rw [tryFromChar_lower c h1 h2, tryFromByte_lower c h1 h2]
    simp only [Option.map_some', toChar, toByte]
    constructor <;> · congr 1; omega

/-- C2 witness: the round trip on the character R (code point 82). -/
theorem C2_char_roundtrip_witness :
    (tryFromChar 82).map toChar = some 82 ∧ (tryFromByte 82).map toByte = some 82 :=
  C2_char_roundtrip 82 (by decide)

/-- C3 as stated is false: `from_index` validates nothing, so a Letter with
position 30 ≥ 26 is directly observable. -/
theorem C3_counterexample_from_index :
    ¬ (from_index 30 LetterCase.Lowercase).index < 26 := by
  decide

/-- C3 amended: every Letter produced by the validating constructors
(char, byte, string) has position < 26, and `shift` only ever returns
positions < 26; only the unchecked `from_index` can break the invariant. -/
theorem C3_amended_invariant :
    (∀ c l, tryFromChar c = some l → l.index < 26) ∧
      (∀ c l, tryFromByte c = some l → l.index < 26) ∧
      (∀ s ls, from_string s = some ls → ∀ l, l ∈ ls → l.index < 26) ∧
      (∀ l n lr, shift l n = some lr → lr.index < 26) := by
  have hchar : ∀ c l, tryFromChar c = some l → l.index < 26 := by
    intro c l h
    have ha := tryFromChar_some_alpha c l h
    simp only [isAsciiAlphabetic, isAsciiUppercase, isAsciiLowercase,
      Bool.or_eq_true, decide_eq_true_eq] at ha
    rcases ha with ⟨h1, h2⟩ | ⟨h1, h2⟩
    · rw [tryFromChar_upper c h1 h2] at h
      have h3 := Option.some.inj h
      subst h3
      show c - 65 < 26
      omega
    · rw [tryFromChar_lower c h1 h2] at h
      have h3 := Option.some.inj h
      subst h3
      show c - 97 < 26
      omega
  have hbyte : ∀ c l, tryFromByte c = some l → l.index < 26 := by
    intro c l h
    simp only [tryFromByte] at h
    split at h
    · rename_i hl
      simp only [isAsciiLowercase, decide_eq_true_eq] at hl
      have h3 := Option.some.inj h
      subst h3
      show c - 97 < 26
      omega
    · split at h
      · rename_i hu
        simp only [isAsciiUppercase, decide_eq_true_eq] at hu
        have h3 := Option.some.inj h
        subst h3
        show c - 65 < 26
        omega
      · exact Option.noConfusion h
  have hshift : ∀ l n lr, shift l n = some lr → lr.index < 26 := by
    intro l n lr h
    obtain ⟨i, c⟩ := l
    simp only [shift, ALPHABET_SIZE] at h
    split at h
    · have h3 := Option.some.inj h
      subst h3
      exact Nat.mod_lt _ (by norm_num)
    · exact Option.noConfusion h
  refine ⟨hchar, hbyte, ?_, hshift⟩
  intro s ls h l hm
  obtain ⟨hlen, hord⟩ := from_string_some_spec s ls h
  obtain ⟨⟨i, hl⟩, hget⟩ := List.mem_iff_get.mp hm
  have hs : i < s.length := by omega
  exact hget ▸ hchar (s.get ⟨i, hs⟩) (ls.get ⟨i, hl⟩) (hord i hs hl)

/-- C3 amended witness: the letter parsed from the character a has
position 0 < 26. -/
theorem C3_amended_invariant_witness :
    (⟨0, LetterCase.Lowercase⟩ : AlphabeticLetter).index < 26 :=
  C3_amended_invariant.1 97 ⟨0, LetterCase.Lowercase⟩ (by decide)

/-- C4: the char and byte constructors succeed exactly on ASCII alphabetic
input (everything else fails with the NotAlphabetic error, here `none`);
on success the position is the offset from the case base character and the
case tag matches the input's case. -/
theorem C4_validation_boundary (c : Nat) :
    ((tryFromChar c).isSome = isAsciiAlphabetic c) ∧
      ((tryFromByte c).isSome = isAsciiAlphabetic c) ∧
      (isAsciiLowercase c = true →
        tryFromChar c = some ⟨c - 97, LetterCase.Lowercase⟩ ∧
          tryFromByte c = some ⟨c - 97, LetterCase.Lowercase⟩) ∧
      (isAsciiUppercase c = true →
        tryFromChar c = some ⟨c - 65, LetterCase.Uppercase⟩ ∧
          tryFromByte c = some ⟨c - 65, LetterCase.Uppercase⟩) := by
  refine ⟨?_, ?_, ?_, ?_⟩
  · rcases Bool.eq_false_or_eq_true (isAsciiAlphabetic c) with h1 | h1
    · rw [h1]
      have h2 := h1
      simp only [isAsciiAlphabetic, isAsciiUppercase, isAsciiLowercase,
        Bool.or_eq_true, decide_eq_true_eq] at h2
      rcases h2 with ⟨ha, hb⟩ | ⟨ha, hb⟩
      · rw [tryFromChar_upper c ha hb]; rfl
      · rw [tryFromChar_lower c ha hb]; rfl
    · rw [h1, tryFromChar_not_alpha c h1]; rfl
  · rcases Bool.eq_false_or_eq_true (isAsciiAlphabetic c) with h1 | h1
    · rw [h1]
      have h2 := h1
      simp only [isAsciiAlphabetic, isAsciiUppercase, isAsciiLowercase,
        Bool.or_eq_true, decide_eq_true_eq] at h2
      rcases h2 with ⟨ha, hb⟩ | ⟨ha, hb⟩
      · rw [tryFromByte_upper c ha hb]; rfl
      · rw [tryFromByte_lower c ha hb]; rfl
    · rw [h1, tryFromByte_not_alpha c h1]; rfl
  · intro hl
    have hb := hl
    simp only [isAsciiLowercase, decide_eq_true_eq] at hb
    exact ⟨tryFromChar_lower c hb.1 hb.2, tryFromByte_lower c hb.1 hb.2⟩
  · intro hu
    have hb := hu
    simp only [isAsciiUppercase, decide_eq_true_eq] at hb
    exact ⟨tryFromChar_upper c hb.1 hb.2, tryFromByte_upper c hb.1 hb.2⟩

/-- C4 witness: the character z (code point 122) parses to position 25,
lowercase, through both constructors. -/
theorem C4_validation_boundary_witness :
    tryFromChar 122 = some ⟨122 - 97, LetterCase.Lowercase⟩ ∧
      tryFromByte 122 = some ⟨122 - 97, LetterCase.Lowercase⟩ :=
  (C4_validation_boundary 122).2.2.1 (by decide)

/-- C5: `from_string` fails atomically (no partial sequence) exactly when
some character is not ASCII alphabetic; on success the output has one
letter per input character, in the original order; the empty string
succeeds with the empty sequence. -/
theorem C5_from_string_contract (s : List Nat) :
    (from_string s = none ↔ ∃ c ∈ s, isAsciiAlphabetic c = false) ∧
      (∀ ls, from_string s = some ls →
        ls.length = s.length ∧
          ∀ i (hs : i < s.length) (hl : i < ls.length),
            tryFromChar (s.get ⟨i, hs⟩) = some (ls.get ⟨i, hl⟩)) ∧
      from_string [] = some [] :=
  ⟨from_string_eq_none_iff s, fun ls h => from_string_some_spec s ls h,
    from_string_nil⟩

/-- C5 witness: the string H1 (code points 72, 49) fails because of the
non-alphabetic digit 1. -/
theorem C5_from_string_contract_witness : from_string [72, 49] = none :=
  (C5_from_string_contract [72, 49]).1.mpr ⟨49, by decide, by decide⟩

/-- C6: shifting never changes the case field: whenever `shift` returns a
letter, its case equals the original case (the index is the only field
`shift` touches). -/
theorem C6_shift_preserves_case (l : AlphabeticLetter) (n : Int)
    (lr : AlphabeticLetter) (h : shift l n = some lr) : lr.case = l.case := by
  obtain ⟨i, c⟩ := l
  simp only [shift] at h
  split at h
  · have h3 := Option.some.inj h
    subst h3
    rfl
  · exact Option.noConfusion h

/-- C6 witness: shifting the letter a by 3 keeps it lowercase. -/
theorem C6_shift_preserves_case_witness :
    (⟨3, LetterCase.Lowercase⟩ : AlphabeticLetter).case =
      (⟨0, LetterCase.Lowercase⟩ : AlphabeticLetter).case :=
  C6_shift_preserves_case ⟨0, LetterCase.Lowercase⟩ 3 ⟨3, LetterCase.Lowercase⟩
    (by decide)

/-- C7: `shift` is 26-periodic in its amount, and shifting by n and then by
26 - (n mod 26) returns the letter to its original value. -/
theorem C7_shift_periodic_invertible (l : AlphabeticLetter) (n : Int)
    (h : l.index < 26) :
    shift l n = shift l (n + 26) ∧
      (shift l n).bind (fun lm => shift lm (26 - n % 26)) = some l := by
  obtain ⟨i, c⟩ := l
  have hi : i < 26 := h
  constructor
  · rw [shift_spec_mk i c n hi, shift_spec_mk i c (n + 26) hi]
    simp only [Option.some.injEq, AlphabeticLetter.mk.injEq, and_true]
    omega
  · have h1 : (((i : Int) + n) % 26).toNat < 26 := by omega
    rw [shift_spec_mk i c n hi, Option.some_bind,
      shift_spec_mk ((((i : Int) + n) % 26).toNat) c (26 - n % 26) h1]
    simp only [Option.some.injEq, AlphabeticLetter.mk.injEq, and_true]
    omega

/-- C7 witness: the letter R (position 17, uppercase) with amount -5. -/
theorem C7_shift_periodic_invertible_witness :
    shift ⟨17, LetterCase.Uppercase⟩ (-5) = shift ⟨17, LetterCase.Uppercase⟩ (-5 + 26) ∧
      (shift ⟨17, LetterCase.Uppercase⟩ (-5)).bind
        (fun lm => shift lm (26 - (-5) % 26)) = some ⟨17, LetterCase.Uppercase⟩ :=
  C7_shift_periodic_invertible ⟨17, LetterCase.Uppercase⟩ (-5) (by decide)

/-- C8: converting the string Rust (code points 82, 117, 115, 116) with
`from_string`, shifting only the first letter by -5, and converting every
letter back yields Must (code points 77, 117, 115, 116). -/
theorem C8_rust_shift_must :
    (from_string [82, 117, 115, 116]).bind
      (fun v =>
        match v with
        | [] => none
        | l :: rest => (shift l (-5)).map (fun lm => (lm :: rest).map toChar)) =
      some [77, 117, 115, 116] := by
  decide

/-- C9: converting a Letter with position < 26 to a character and parsing
that character back succeeds and returns the same Letter; the produced
character is ASCII alphabetic and its case matches the letter's case tag. -/
theorem C9_reverse_roundtrip (l : AlphabeticLetter) (h : l.index < 26) :
    tryFromChar (toChar l) = some l ∧
      isAsciiAlphabetic (toChar l) = true ∧
      (l.case = LetterCase.Lowercase → isAsciiLowercase (toChar l) = true) ∧
      (l.case = LetterCase.Uppercase → isAsciiUppercase (toChar l) = true) := by
  obtain ⟨i, c⟩ := l
  have hi : i < 26 := h
  cases c
  · have ht : toChar ⟨i, LetterCase.Lowercase⟩ = i + 97 := rfl
    rw [ht]
    refine ⟨?_, ?_, fun _ => ?_, fun hcon => ?_⟩
    · rw [tryFromChar_lower (i + 97) (by omega) (by omega)]
      simp only [Option.some.injEq, AlphabeticLetter.mk.injEq, and_true]
      omega
    · simp [isAsciiAlphabetic, isAsciiLowercase, isAsciiUppercase]
      omega
    · simp [isAsciiLowercase]
      omega
    · exact LetterCase.noConfusion hcon
  · have ht : toChar ⟨i, LetterCase.Uppercase⟩ = i + 65 := rfl
    rw [ht]
    refine ⟨?_, ?_, fun hcon => ?_, fun _ => ?_⟩
    · rw [tryFromChar_upper (i + 65) (by omega) (by omega)]
      simp only [Option.some.injEq, AlphabeticLetter.mk.injEq, and_true]
      omega
    · simp [isAsciiAlphabetic, isAsciiLowercase, isAsciiUppercase]
      omega
    · exact LetterCase.noConfusion hcon
    · simp [isAsciiUppercase]
      omega

/-- C9 witness: the letter X (position 23, uppercase) round-trips through
the character 88. -/
theorem C9_reverse_roundtrip_witness :
    tryFromChar (toChar ⟨23, LetterCase.Uppercase⟩) = some ⟨23, LetterCase.Uppercase⟩ ∧
      isAsciiAlphabetic (toChar ⟨23, LetterCase.Uppercase⟩) = true ∧
      ((⟨23, LetterCase.Uppercase⟩ : AlphabeticLetter).case = LetterCase.Lowercase →
        isAsciiLowercase (toChar ⟨23, LetterCase.Uppercase⟩) = true) ∧
      ((⟨23, LetterCase.Uppercase⟩ : AlphabeticLetter).case = LetterCase.Uppercase →
        isAsciiUppercase (toChar ⟨23, LetterCase.Uppercase⟩) = true) :=
  C9_reverse_roundtrip ⟨23, LetterCase.Uppercase⟩ (by decide)

/-- C10: under the position invariant, the intermediate i32 value
`amount % 26 + 26` lies in [1, 51] so its cast to u8 is lossless, the u8
addition `position + offset` stays at most 76 and cannot overflow, and
`shift` therefore never takes the panic branch. -/
theorem C10_shift_arithmetic_safety (l : AlphabeticLetter) (amount : Int)
    (h : l.index < 26) (h1 : -(2 ^ 31) ≤ amount) (h2 : amount < 2 ^ 31) :
    1 ≤ amount.tmod 26 + 26 ∧ amount.tmod 26 + 26 ≤ 51 ∧
      ((amount.tmod 26 + 26) % 256).toNat = (amount.tmod 26 + 26).toNat ∧
      (l.index : Int) + (amount.tmod 26 + 26) ≤ 76 ∧
      (shift l amount).isSome = true := by
  have hb := tmod26_facts amount
  refine ⟨by omega, by omega, by omega, by omega, ?_⟩
  rw [shift_spec l amount h]
  rfl

/-- C10 witness: the letter a (position 0, lowercase) with amount -1000000. -/
theorem C10_shift_arithmetic_safety_witness :
    1 ≤ Int.tmod (-1000000) 26 + 26 ∧ Int.tmod (-1000000) 26 + 26 ≤ 51 ∧
      ((Int.tmod (-1000000) 26 + 26) % 256).toNat = (Int.tmod (-1000000) 26 + 26).toNat ∧
      ((⟨0, LetterCase.Lowercase⟩ : AlphabeticLetter).index : Int) +
        (Int.tmod (-1000000) 26 + 26) ≤ 76 ∧
      (shift ⟨0, LetterCase.Lowercase⟩ (-1000000)).isSome = true :=
  C10_shift_arithmetic_safety ⟨0, LetterCase.Lowercase⟩ (-1000000)
    (by decide) (by decide) (by decide)
